import Mathlib

/-!
Verification development for the `nflprojections` matching/combination core.

The definitions below are a shallow embedding of
`nflprojections/matching/player_matcher.py` and
`nflprojections/combine/projectioncombiner.py`.

Modelling conventions:
* Python strings are `List Char`; numeric values (Python floats) are `ℚ`,
  the exact-arithmetic idealization of the float computations.
* Python dict records are structures with `Option`-valued fields; an absent
  dict key is `none`.  `pandas` missing values (NaN) are likewise `none`.
* Fuzzy string similarity is `difflib.SequenceMatcher(None, a, b).ratio()`.
  The embedding models the algorithm without the default `autojunk`
  popularity heuristic, which fires only when the second compared string is
  at least 200 characters long and can then zero one comparison order only;
  theorems that quantify over unbounded strings therefore carry a
  below-200-characters hypothesis confining them to the autojunk-free
  regime.  Python `lower()` and `strip()` are modelled for ASCII input.
-/

namespace NFLProj

/-- A Python string, modelled as its list of characters. -/
abbrev PyStr := List Char

/-! ### difflib.SequenceMatcher -/

/-- Length of the longest common prefix run of equal characters, i.e. the
length of the matching block starting at the two given positions. -/
def runLen : List Char → List Char → ℕ
  | a :: as, b :: bs => if a = b then runLen as bs + 1 else 0
  | _, _ => 0

/-- `difflib.SequenceMatcher.find_longest_match` over the whole ranges of
`a` and `b` with no junk: with an empty junk set the trailing extension
loops of the source can never extend a maximal block, and the default
`autojunk` purge (only active when `b` has 200 or more characters) is not
modelled, so theorems quantifying over arbitrary strings are restricted to
below that length.  Returns `(i, j, k)`, the longest matching
block `a[i:i+k] = b[j:j+k]`; among maximal blocks the one with least `i`,
then least `j`, is returned (the dynamic-programming loop of `difflib`
records, among maximal blocks, the one whose end position `(i+k-1, j+k-1)`
occurs first in lexicographic scan order, which is the same block).
If there is no nonempty common block the size component is `0`. -/
def find_longest_match (a b : List Char) : ℕ × ℕ × ℕ :=
  (List.range a.length).foldl
    (fun best i =>
      (List.range b.length).foldl
        (fun best j =>
          let k := runLen (a.drop i) (b.drop j)
          if best.2.2 < k then (i, j, k) else best)
        best)
    (0, 0, 0)

/-- Any property preserved by each step of a left fold holds of the result. -/
theorem foldl_invariant {α β : Type*} (P : β → Prop) (f : β → α → β)
    (l : List α) (init : β) (h0 : P init)
    (hstep : ∀ acc x, x ∈ l → P acc → P (f acc x)) : P (l.foldl f init) := by
  induction l generalizing init with
  | nil => exact h0
  | cons x xs ih =>
      exact ih (f init x) (hstep init x (List.mem_cons_self x xs) h0)
        (fun acc y hy => hstep acc y (List.mem_cons_of_mem x hy))

/-- The block returned by `find_longest_match` starts inside both strings
whenever it is nonempty. -/
theorem find_longest_match_lt (a b : List Char)
    (h : (find_longest_match a b).2.2 ≠ 0) :
    (find_longest_match a b).1 < a.length ∧
      (find_longest_match a b).2.1 < b.length := by
  unfold find_longest_match
  refine foldl_invariant
    (fun (best : ℕ × ℕ × ℕ) => best.2.2 ≠ 0 → best.1 < a.length ∧ best.2.1 < b.length)
    _ _ _ (by simp) ?_ ?_
  · intro acc i hi hacc
    refine foldl_invariant
      (fun (best : ℕ × ℕ × ℕ) => best.2.2 ≠ 0 → best.1 < a.length ∧ best.2.1 < b.length)
      _ _ _ hacc ?_
    intro acc' j hj hacc'
    dsimp only
    split
    · intro _
      exact ⟨List.mem_range.mp hi, List.mem_range.mp hj⟩
    · exact hacc'
  · unfold find_longest_match at h
    exact h

/-- Total size of the matching blocks of `difflib.get_matching_blocks`:
the longest match is found, then the regions to its left and to its right
are processed in the same way (the queue-based loop of `difflib` computes
exactly this recursive decomposition; only the sum of the block sizes is
needed for `ratio`).  The first argument is structural recursion fuel; every
recursive call strictly shrinks the first string, so any fuel exceeding its
length gives the same value (`matched_total_go_fuel` below). -/
def matched_total_go : ℕ → List Char → List Char → ℕ
  | 0, _, _ => 0
  | fuel+1, a, b =>
      if (find_longest_match a b).2.2 = 0 then 0
      else
        (find_longest_match a b).2.2
          + matched_total_go fuel (a.take (find_longest_match a b).1)
              (b.take (find_longest_match a b).2.1)
          + matched_total_go fuel
              (a.drop ((find_longest_match a b).1 + (find_longest_match a b).2.2))
              (b.drop ((find_longest_match a b).2.1 + (find_longest_match a b).2.2))

/-- Total matched size of `difflib.get_matching_blocks`, with enough fuel. -/
def matched_total (a b : List Char) : ℕ := matched_total_go (a.length + 1) a b

/-- The fuel of `matched_total_go` is irrelevant as long as it exceeds the
length of the first string, so `matched_total` computes the total matched
size of the terminating difflib recursion. -/
theorem matched_total_go_fuel : ∀ (f : ℕ) (a b : List Char) (g : ℕ),
    a.length < f → a.length < g → matched_total_go f a b = matched_total_go g a b := by
  intro f
  induction f with
  | zero =>
      intro a b g hf
      omega
  | succ f ih =>
      intro a b g hf hg
      cases g with
      | zero => omega
      | succ g =>
          unfold matched_total_go
          by_cases hk : (find_longest_match a b).2.2 = 0
          · rw [if_pos hk, if_pos hk]
          · rw [if_neg hk, if_neg hk]
            have hb := (find_longest_match_lt a b hk).1
            congr 1
            · congr 1
              apply ih
              · simp only [List.length_take]
                omega
              · simp only [List.length_take]
                omega
            · apply ih
              · simp only [List.length_drop]
                omega
              · simp only [List.length_drop]
                omega

/-- `difflib.SequenceMatcher.ratio()`: `2*M/T` where `M` is the total matched
size and `T` the combined length; `difflib._calculate_ratio` returns `1.0`
when `T = 0`. -/
def ratioQ (a b : List Char) : ℚ :=
  let T := a.length + b.length
  if T = 0 then 1 else 2 * (matched_total a b : ℚ) / (T : ℚ)

/-! ### PlayerMatcher._calculate_similarity -/

/-- The characters removed by Python `str.strip()` (ASCII whitespace). -/
def isPySpace (c : Char) : Bool :=
  c = ' ' || c = '\t' || c = '\n' || c = '\r' || c = '\x0b' || c = '\x0c'

/-- Python `str.strip()`: remove leading and trailing whitespace (faithful
for ASCII input up to the rare separator control characters; theorems using
it either hypothesize the modelled whitespace set or are confined to ASCII
text). -/
def pyStrip (s : List Char) : List Char :=
  ((s.dropWhile isPySpace).reverse.dropWhile isPySpace).reverse

/-- Python `str.lower()`, characterwise (faithful for ASCII characters;
the Unicode special cases of the Python method are not modelled). -/
def pyLower (s : List Char) : List Char := s.map Char.toLower

/-- `PlayerMatcher._calculate_similarity`: empty (falsy) inputs score `0.0`;
otherwise both strings are lowercased and stripped and compared with
`SequenceMatcher.ratio()`. -/
def calculate_similarity (str1 str2 : List Char) : ℚ :=
  if str1 = [] ∨ str2 = [] then 0
  else ratioQ (pyStrip (pyLower str1)) (pyStrip (pyLower str2))

/-! ### Python round -/

/-- Python `round` to an integer: round-half-to-even (bankers rounding),
on the exact rational value. -/
def roundHalfEven (x : ℚ) : ℤ :=
  let f := ⌊x⌋
  let r := x - (f : ℚ)
  if r < 1/2 then f else if 1/2 < r then f + 1 else if Even f then f else f + 1

/-- Python `round(x, 3)`. -/
def py_round3 (x : ℚ) : ℚ := (roundHalfEven (x * 1000) : ℚ) / 1000

/-! ### PlayerMatcher -/

/-- The fields of a player record that the matcher reads (`plyr`, `pos`,
`team`); an absent dict key is `none`.  The matcher ignores every other key
of the Python record dicts. -/
structure Player where
  plyr : Option PyStr
  pos : Option PyStr
  team : Option PyStr
deriving DecidableEq, Repr

/-- The `field_similarities` dict: per-field similarity scores for the keys
that were compared (present in both records). -/
structure FieldSimilarities where
  plyr : Option ℚ
  pos : Option ℚ
  team : Option ℚ
deriving DecidableEq, Repr

/-- The four similarity thresholds configuring a `PlayerMatcher`. -/
structure PlayerMatcher where
  name_threshold : ℚ
  position_threshold : ℚ
  team_threshold : ℚ
  overall_threshold : ℚ
deriving DecidableEq, Repr

/-- The constructor defaults: `0.7`, `0.8`, `0.5`, `0.65`. -/
def defaultMatcher : PlayerMatcher := ⟨7/10, 4/5, 1/2, 13/20⟩

/-- `PlayerMatcher._calculate_player_similarity`: each of `plyr` (weight
`0.6`), `pos` (weight `0.2`), `team` (weight `0.2`) present in both records
contributes a score/weight pair; the overall score is the weighted average
over the contributing pairs, `0.0` when there are none. -/
def calculate_player_similarity (p1 p2 : Player) : ℚ × FieldSimilarities :=
  let simP : Option ℚ := match p1.plyr, p2.plyr with
    | some a, some b => some (calculate_similarity a b)
    | _, _ => none
  let simPos : Option ℚ := match p1.pos, p2.pos with
    | some a, some b => some (calculate_similarity a b)
    | _, _ => none
  let simTeam : Option ℚ := match p1.team, p2.team with
    | some a, some b => some (calculate_similarity a b)
    | _, _ => none
  let pairs : List (ℚ × ℚ) :=
    (simP.toList.map (fun s => (s, (3:ℚ)/5)))
      ++ (simPos.toList.map (fun s => (s, (1:ℚ)/5)))
      ++ (simTeam.toList.map (fun s => (s, (1:ℚ)/5)))
  let overall : ℚ :=
    if pairs = [] then 0
    else (pairs.map (fun p => p.1 * p.2)).sum / (pairs.map (fun p => p.2)).sum
  (overall, ⟨simP, simPos, simTeam⟩)

/-- Result of one candidate pairing, as in the `MatchResult` dataclass. -/
structure MatchResult where
  source1_index : ℕ
  source2_index : ℕ
  source1_player : Player
  source2_player : Player
  similarity : ℚ
  match_fields : FieldSimilarities
deriving DecidableEq, Repr

/-- The threshold filter of `match_players`: each field similarity that was
computed must reach its threshold (`min(team_threshold, 0.4)` for teams) and
the overall score must reach `overall_threshold`. -/
def meets_thresholds (m : PlayerMatcher) (overall : ℚ) (fs : FieldSimilarities) : Bool :=
  (match fs.plyr with | some v => !decide (v < m.name_threshold) | none => true)
    && (match fs.pos with | some v => !decide (v < m.position_threshold) | none => true)
    && (match fs.team with | some v => !decide (v < min m.team_threshold (2/5)) | none => true)
    && !decide (overall < m.overall_threshold)

/-- `PlayerMatcher.match_players`: every pair of the cross product that meets
the thresholds yields a `MatchResult` (with the overall score rounded to 3
decimals stored as `similarity`); the results are stably sorted by descending
similarity. -/
def match_players (m : PlayerMatcher) (source1 source2 : List Player) :
    List MatchResult :=
  let ms := source1.enum.flatMap (fun p =>
    source2.enum.filterMap (fun q =>
      let r := calculate_player_similarity p.2 q.2
      if meets_thresholds m r.1 r.2 then
        some ⟨p.1, q.1, p.2, q.2, py_round3 r.1, r.2⟩
      else none))
  ms.mergeSort (fun x y => decide (y.similarity ≤ x.similarity))

/-- Python `max(candidates, key=lambda x: x.similarity)` on a possibly empty
list: the first element of maximal similarity. -/
def maxBySimilarity : List MatchResult → Option MatchResult
  | [] => none
  | x :: xs =>
      some (xs.foldl (fun best y => if best.similarity < y.similarity then y else best) x)

/-- `PlayerMatcher.get_best_matches`: the source-1 indices that have any
accepted candidate are processed in ascending order; each receives its
highest-similarity remaining candidate, and with `allow_duplicates = false`
a chosen source-2 index is excluded from later candidates. -/
def get_best_matches (m : PlayerMatcher) (source1 source2 : List Player)
    (allow_duplicates : Bool) : List MatchResult :=
  let all_matches := match_players m source1 source2
  if all_matches = [] then []
  else
    let keys := ((all_matches.map (fun mr => mr.source1_index)).dedup).mergeSort
      (fun a b => decide (a ≤ b))
    (keys.foldl (fun st k =>
      let candidates := all_matches.filter (fun mr => mr.source1_index == k)
      let candidates := if allow_duplicates then candidates
        else candidates.filter (fun mr => !st.2.contains mr.source2_index)
      match maxBySimilarity candidates with
      | some best =>
          (st.1 ++ [best], if allow_duplicates then st.2 else st.2 ++ [best.source2_index])
      | none => st) (([], []) : List MatchResult × List ℕ)).1

/-- The loop body of `get_best_matches` for `allow_duplicates = false`,
written out for reasoning about the fold; it is definitionally equal to the
lambda inside `get_best_matches` with `allow_duplicates` set to `false`
(see `get_best_matches_false_eq`). -/
def gbm_step (all : List MatchResult) (st : List MatchResult × List ℕ) (k : ℕ) :
    List MatchResult × List ℕ :=
  let candidates := all.filter (fun mr => mr.source1_index == k)
  let candidates := candidates.filter (fun mr => !st.2.contains mr.source2_index)
  match maxBySimilarity candidates with
  | some best => (st.1 ++ [best], st.2 ++ [best.source2_index])
  | none => st

/-! ### ProjectionCombiner -/

/-- One source record as consumed by `ProjectionCombiner`: the identifying
fields read by the matcher plus the `proj` column (missing = `none`). -/
structure SourceRecord where
  plyr : Option PyStr
  pos : Option PyStr
  team : Option PyStr
  proj : Option ℚ
deriving DecidableEq, Repr

/-- The matcher-visible fields of a source record. -/
def SourceRecord.fields (r : SourceRecord) : Player := ⟨r.plyr, r.pos, r.team⟩

/-- A row of the merged wide table: identifying columns plus the projection
columns `proj_0 ... proj_k` (entry `i` of `projs` is column `proj_i`, and
`none` is a missing value).  The transient `match_similarity` column written
by the fuzzy merge is not referenced by any later computation and is not
tracked. -/
structure MergedRow where
  base : Player
  projs : List (Option ℚ)
deriving DecidableEq, Repr

/-- The row key comparison of the merge on the player column: two keys join
only when both are present and equal.  pandas merge additionally pairs
missing (NaN) keys with each other; that difference is immaterial to the
properties proven here (which columns a merged row retains and how many
projection columns it has hold under either semantics). -/
def keyEq : Option PyStr → Option PyStr → Bool
  | some a, some b => a == b
  | _, _ => false

/-- One step of `ProjectionCombiner._merge_projections`: pandas
`result.merge(proj_df, on=player_key, how=outer)` where the right table
holds columns `plyr` and `proj_i`.  Matching left and right rows are paired
(many-to-many pairs form the full cross product); unmatched left rows get a
missing `proj_i`; unmatched right rows start a new row whose earlier columns
are missing.  Row order is modelled as matched-then-new, which the claims
(all per-row) do not depend on. -/
def outer_merge_step (acc : List MergedRow) (src : List SourceRecord) (i : ℕ) :
    List MergedRow :=
  (acc.flatMap (fun row =>
    let rights := src.filter (fun s => keyEq row.base.plyr s.plyr)
    if rights = [] then [{ row with projs := row.projs ++ [none] }]
    else rights.map (fun s => { row with projs := row.projs ++ [s.proj] })))
    ++ ((src.filter (fun s => !(acc.any (fun row => keyEq row.base.plyr s.plyr)))).map
      (fun s => ⟨⟨s.plyr, none, none⟩, List.replicate i none ++ [s.proj]⟩))

/-- `ProjectionCombiner._merge_projections` (exact mode): the first source is
reduced to its `plyr` and `proj` columns (renamed `proj_0`); every further
source is outer-merged on `plyr`, contributing column `proj_i`. -/
def merge_projections (projections : List (List SourceRecord)) : List MergedRow :=
  match projections with
  | [] => []
  | p0 :: rest =>
      let init := p0.map (fun r => (⟨⟨r.plyr, none, none⟩, [r.proj]⟩ : MergedRow))
      (rest.foldl (fun st src => (outer_merge_step st.1 src st.2, st.2 + 1))
        ((init, 1) : List MergedRow × ℕ)).1

/-- One step of `ProjectionCombiner._merge_projections_fuzzy`: fuzzy-match the
accumulator against source `i` with `allow_duplicates=False`; each match
extends its accumulator row with the projection of the matched record, every
unmatched accumulator row is extended with a missing value, and unmatched
records of source `i` are dropped.  When no row at all was produced (empty
accumulator) the `proj_i` column is still appended. -/
def fuzzy_merge_step (m : PlayerMatcher) (acc : List MergedRow)
    (src : List SourceRecord) : List MergedRow :=
  let ms := get_best_matches m (acc.map (fun row => row.base))
    (src.map SourceRecord.fields) false
  let matched := ms.filterMap (fun mr =>
    (acc[mr.source1_index]?).map (fun row =>
      { row with projs := row.projs ++ [(src[mr.source2_index]?).bind (fun s => s.proj)] }))
  let used := ms.map (fun mr => mr.source1_index)
  let unmatched := (acc.enum.filter (fun p => !(used.contains p.1))).map
    (fun p => { p.2 with projs := p.2.projs ++ [none] })
  let matched_data := matched ++ unmatched
  if matched_data = [] then acc.map (fun row => { row with projs := row.projs ++ [none] })
  else matched_data

/-- `ProjectionCombiner._merge_projections_fuzzy`: with a single source only
the `plyr` and `proj` columns are kept; with several, the full first source
is the accumulator and every later source is folded in by fuzzy matching. -/
def merge_projections_fuzzy (m : PlayerMatcher)
    (projections : List (List SourceRecord)) : List MergedRow :=
  match projections with
  | [] => []
  | [p] => p.map (fun r => (⟨⟨r.plyr, none, none⟩, [r.proj]⟩ : MergedRow))
  | p0 :: rest =>
      rest.foldl (fuzzy_merge_step m)
        (p0.map (fun r => (⟨r.fields, [r.proj]⟩ : MergedRow)))

/-! ### Combination methods -/

/-- pandas `Series.mean()` with `skipna`: the mean of the present values,
`NaN` (= `none`) when there are none. -/
def pdMean (l : List ℚ) : Option ℚ :=
  if l = [] then none else some (l.sum / (l.length : ℚ))

/-- The present values of the `proj_` columns of a row, in column order. -/
def presentProjs (row : MergedRow) : List ℚ := row.projs.filterMap id

/-- A combined output row: the input row with the `combined_proj` and
`source_count` columns computed by a combination method. -/
structure CombinedRow where
  row : MergedRow
  combined_proj : Option ℚ
  source_count : ℕ
deriving DecidableEq, Repr

/-- `ProjectionCombiner._simple_average` on one row: mean over the `proj_`
columns ignoring missing values, plus the count of present values. -/
def simple_average_row (row : MergedRow) : CombinedRow :=
  ⟨row, pdMean (presentProjs row), (presentProjs row).length⟩

/-- `ProjectionCombiner._simple_average`. -/
def simple_average (t : List MergedRow) : List CombinedRow :=
  t.map simple_average_row

/-- The weight applied to column `proj_i`:
`weights.get(source_i, 1.0)`, the weights dict being modelled as an
association list keyed by the source number. -/
def weightFor (W : List (ℕ × ℚ)) (i : ℕ) : ℚ := (W.lookup i).getD 1

/-- `ProjectionCombiner._weighted_average` on one row: weighted sum and
weight sum over the present values; a zero weight sum is replaced by `NaN`
before dividing, so the combined value is then missing. -/
def weighted_average_row (W : List (ℕ × ℚ)) (row : MergedRow) : CombinedRow :=
  let wsum := (row.projs.enum.map (fun p =>
    match p.2 with | some v => v * weightFor W p.1 | none => 0)).sum
  let wtot := (row.projs.enum.map (fun p =>
    match p.2 with | some _ => weightFor W p.1 | none => 0)).sum
  ⟨row, if wtot = 0 then none else some (wsum / wtot), (presentProjs row).length⟩

/-- `ProjectionCombiner._weighted_average`: without a weights dict it falls
back to `_simple_average`. -/
def weighted_average (W : Option (List (ℕ × ℚ))) (t : List MergedRow) :
    List CombinedRow :=
  match W with
  | none => simple_average t
  | some W => t.map (weighted_average_row W)

/-- `ProjectionCombiner._drop_high_low` on one row: with two or fewer present
values their plain mean; otherwise the present values are sorted and the
first and last are dropped before averaging. -/
def drop_high_low_row (row : MergedRow) : CombinedRow :=
  let values := presentProjs row
  if values.length ≤ 2 then ⟨row, pdMean values, values.length⟩
  else
    let sorted := values.mergeSort (fun a b => decide (a ≤ b))
    let trimmed := (sorted.drop 1).dropLast
    ⟨row, pdMean trimmed, values.length⟩

/-- `ProjectionCombiner._drop_high_low`. -/
def drop_high_low (t : List MergedRow) : List CombinedRow :=
  t.map drop_high_low_row

/-! ### Spec-side definitions (for refinement comparisons) -/

/-- Least element of a list of rationals (`0` for the empty list). -/
def listMin : List ℚ → ℚ
  | [] => 0
  | a :: t => t.foldl min a

/-- Greatest element of a list of rationals (`0` for the empty list). -/
def listMax : List ℚ → ℚ
  | [] => 0
  | a :: t => t.foldl max a

/-- The trimmed-mean rule in the words of the spec: with two or fewer present
values their plain mean, otherwise the mean of the present values after
removing exactly one highest and exactly one lowest value. -/
def drop_high_low_spec_row (row : MergedRow) : CombinedRow :=
  let values := presentProjs row
  if values.length ≤ 2 then ⟨row, pdMean values, values.length⟩
  else
    ⟨row, some ((values.sum - listMax values - listMin values) / ((values.length - 2 : ℕ) : ℚ)),
      values.length⟩

/-! ### Lemmas: averaging -/

theorem weightFor_eq_one (W : List (ℕ × ℚ)) (hW : ∀ pr ∈ W, pr.2 = 1) (i : ℕ) :
    weightFor W i = 1 := by
  induction W with
  | nil => simp [weightFor, List.lookup]
  | cons e es ih =>
      obtain ⟨k, v⟩ := e
      have hv : v = 1 := hW (k, v) (List.mem_cons_self _ _)
      have hes := ih (fun pr hpr => hW pr (List.mem_cons_of_mem _ hpr))
      by_cases hk : (i == k) = true
      · simp [weightFor, List.lookup, hk, hv]
      · have hk2 : (i == k) = false := by simpa using hk
        simp only [weightFor, List.lookup, hk2]
        exact hes

theorem wsum_all_ones (W : List (ℕ × ℚ)) (hW : ∀ pr ∈ W, pr.2 = 1)
    (l : List (Option ℚ)) (n : ℕ) :
    ((List.enumFrom n l).map (fun p =>
      match p.2 with | some v => v * weightFor W p.1 | none => 0)).sum
      = (l.filterMap id).sum := by
  induction l generalizing n with
  | nil => simp
  | cons o t ih =>
      cases o with
      | some v =>
          rw [List.enumFrom_cons, List.map_cons, List.sum_cons, ih (n+1)]
          show v * weightFor W n + _ = _
          rw [weightFor_eq_one W hW]
          simp
      | none =>
          rw [List.enumFrom_cons, List.map_cons, List.sum_cons, ih (n+1)]
          show 0 + _ = _
          simp

theorem wtot_all_ones (W : List (ℕ × ℚ)) (hW : ∀ pr ∈ W, pr.2 = 1)
    (l : List (Option ℚ)) (n : ℕ) :
    ((List.enumFrom n l).map (fun p =>
      match p.2 with | some _ => weightFor W p.1 | none => 0)).sum
      = ((l.filterMap id).length : ℚ) := by
  induction l generalizing n with
  | nil => simp
  | cons o t ih =>
      cases o with
      | some v =>
          rw [List.enumFrom_cons, List.map_cons, List.sum_cons, ih (n+1)]
          show weightFor W n + _ = _
          rw [weightFor_eq_one W hW]
          have : List.filterMap id (some v :: t) = v :: List.filterMap id t := by simp
          rw [this, List.length_cons]
          push_cast
          ring
      | none =>
          rw [List.enumFrom_cons, List.map_cons, List.sum_cons, ih (n+1)]
          show 0 + _ = _
          simp

theorem weighted_average_row_all_ones (W : List (ℕ × ℚ))
    (hW : ∀ pr ∈ W, pr.2 = 1) (row : MergedRow) :
    weighted_average_row W row = simple_average_row row := by
  unfold weighted_average_row simple_average_row
  have h1 := wsum_all_ones W hW row.projs 0
  have h2 := wtot_all_ones W hW row.projs 0
  simp only [List.enum] at *
  rw [h1, h2]
  by_cases hz : (row.projs.filterMap id).length = 0
  · have : row.projs.filterMap id = [] := List.length_eq_zero.mp hz
    simp [pdMean, presentProjs, this]
  · have hne : ((row.projs.filterMap id).length : ℚ) ≠ 0 := by
      exact_mod_cast hz
    have hlne : row.projs.filterMap id ≠ [] := by
      intro hcon
      exact hz (by simp [hcon])
    simp [pdMean, presentProjs, hne, hlne]

/-! ### Lemmas: sorted lists, min and max -/

theorem foldl_min_spec (t : List ℚ) : ∀ a : ℚ,
    t.foldl min a ∈ a :: t ∧ t.foldl min a ≤ a ∧ ∀ x ∈ t, t.foldl min a ≤ x := by
  induction t with
  | nil => intro a; simp
  | cons b t ih =>
      intro a
      obtain ⟨hmem, hle, hall⟩ := ih (min a b)
      simp only [List.foldl_cons]
      refine ⟨?_, ?_, ?_⟩
      · rcases List.mem_cons.mp hmem with h1 | h1
        · rcases min_choice a b with hc | hc
          · rw [h1, hc]; exact List.mem_cons_self _ _
          · rw [h1, hc]; exact List.mem_cons_of_mem _ (List.mem_cons_self _ _)
        · exact List.mem_cons_of_mem _ (List.mem_cons_of_mem _ h1)
      · exact le_trans hle (min_le_left a b)
      · intro x hx
        rcases List.mem_cons.mp hx with rfl | hx
        · exact le_trans hle (min_le_right a x)
        · exact hall x hx

theorem foldl_max_spec (t : List ℚ) : ∀ a : ℚ,
    t.foldl max a ∈ a :: t ∧ a ≤ t.foldl max a ∧ ∀ x ∈ t, x ≤ t.foldl max a := by
  induction t with
  | nil => intro a; simp
  | cons b t ih =>
      intro a
      obtain ⟨hmem, hle, hall⟩ := ih (max a b)
      simp only [List.foldl_cons]
      refine ⟨?_, ?_, ?_⟩
      · rcases List.mem_cons.mp hmem with h1 | h1
        · rcases max_choice a b with hc | hc
          · rw [h1, hc]; exact List.mem_cons_self _ _
          · rw [h1, hc]; exact List.mem_cons_of_mem _ (List.mem_cons_self _ _)
        · exact List.mem_cons_of_mem _ (List.mem_cons_of_mem _ h1)
      · exact le_trans (le_max_left a b) hle
      · intro x hx
        rcases List.mem_cons.mp hx with rfl | hx
        · exact le_trans (le_max_right a x) hle
        · exact hall x hx

theorem listMin_spec (l : List ℚ) (h : l ≠ []) :
    listMin l ∈ l ∧ ∀ x ∈ l, listMin l ≤ x := by
  match l with
  | a :: t =>
      obtain ⟨hmem, hle, hall⟩ := foldl_min_spec t a
      refine ⟨hmem, ?_⟩
      intro x hx
      rcases List.mem_cons.mp hx with rfl | hx
      · exact hle
      · exact hall x hx

theorem listMax_spec (l : List ℚ) (h : l ≠ []) :
    listMax l ∈ l ∧ ∀ x ∈ l, x ≤ listMax l := by
  match l with
  | a :: t =>
      obtain ⟨hmem, hle, hall⟩ := foldl_max_spec t a
      refine ⟨hmem, ?_⟩
      intro x hx
      rcases List.mem_cons.mp hx with rfl | hx
      · exact hle
      · exact hall x hx

theorem sorted_cons_lb (a : ℚ) (t : List ℚ) (hs : List.Pairwise (· ≤ ·) (a :: t)) :
    ∀ x ∈ a :: t, a ≤ x := by
  intro x hx
  rcases List.mem_cons.mp hx with rfl | hx
  · exact le_refl x
  · exact (List.pairwise_cons.mp hs).1 x hx

theorem sorted_concat_ub (l : List ℚ) (z : ℚ) (hs : List.Pairwise (· ≤ ·) (l ++ [z])) :
    ∀ x ∈ l ++ [z], x ≤ z := by
  intro x hx
  rcases List.mem_append.mp hx with hx | hx
  · exact (List.pairwise_append.mp hs).2.2 x hx z (List.mem_singleton_self z)
  · rw [List.mem_singleton.mp hx]

theorem listMin_eq_of (l : List ℚ) (z : ℚ) (hz : z ∈ l) (hall : ∀ x ∈ l, z ≤ x) :
    listMin l = z :=
  le_antisymm ((listMin_spec l (List.ne_nil_of_mem hz)).2 z hz)
    (hall _ (listMin_spec l (List.ne_nil_of_mem hz)).1)

theorem listMax_eq_of (l : List ℚ) (z : ℚ) (hz : z ∈ l) (hall : ∀ x ∈ l, x ≤ z) :
    listMax l = z :=
  le_antisymm (hall _ (listMax_spec l (List.ne_nil_of_mem hz)).1)
    ((listMax_spec l (List.ne_nil_of_mem hz)).2 z hz)

theorem mergeSort_sorted_le (l : List ℚ) :
    List.Pairwise (· ≤ ·) (l.mergeSort (fun a b => decide (a ≤ b))) := by
  have h := @List.sorted_mergeSort ℚ (fun a b : ℚ => decide (a ≤ b))
    (fun a b c hab hbc => by
      simp only [decide_eq_true_eq] at *
      exact le_trans hab hbc)
    (fun a b => by
      rcases le_total a b with h | h <;> simp [h]) l
  exact h.imp (fun hab => by simpa using hab)

theorem drop_one_dropLast_sum (a : ℚ) (t : List ℚ) (hne2 : t ≠ []) :
    (((a :: t).drop 1).dropLast).sum
      = (a :: t).sum - a - (a :: t).getLast (by simp) := by
  have hd := @List.dropLast_append_getLast _ t hne2
  have hsum : t.sum = t.dropLast.sum + t.getLast hne2 := by
    conv_lhs => rw [← hd]
    simp
  rw [List.getLast_cons hne2]
  simp only [List.drop_one, List.tail_cons, List.sum_cons]
  rw [hsum]
  ring

/-! ### Claim C5, C6, C7 theorems -/

/-- C5: combining a merged wide table with WEIGHTED_AVERAGE under a weights
map that assigns weight 1.0 to every source produces, on every row, the same
combined_proj and source_count (indeed the same output row) as combining the
same table with AVERAGE. -/
theorem C5_weighted_average_unit_weights_eq_average (W : List (ℕ × ℚ))
    (t : List MergedRow) (hW : ∀ pr ∈ W, pr.2 = 1) :
    weighted_average (some W) t = simple_average t := by
  unfold weighted_average simple_average
  exact List.map_congr_left (fun row _ => weighted_average_row_all_ones W hW row)

/-- Witness for C5 at a concrete table and all-ones weights map. -/
theorem C5_witness :
    weighted_average (some [(0, 1), (1, 1)])
        [⟨⟨none, none, none⟩, [some 3, none]⟩, ⟨⟨none, none, none⟩, [some 1, some 2]⟩]
      = simple_average
        [⟨⟨none, none, none⟩, [some 3, none]⟩, ⟨⟨none, none, none⟩, [some 1, some 2]⟩] :=
  C5_weighted_average_unit_weights_eq_average [(0, 1), (1, 1)] _ (by decide)

/-- C7: when every present projection value of a row has weight 0 under the
weights map, the weighted-average combination of that row yields a missing
combined_proj (the total computation is a total function, so no error is
raised). -/
theorem C7_all_zero_weights_give_missing (W : List (ℕ × ℚ)) (row : MergedRow)
    (hw : ∀ p ∈ row.projs.enum, p.2.isSome = true → weightFor W p.1 = 0) :
    (weighted_average_row W row).combined_proj = none := by
  unfold weighted_average_row
  have hz : ((row.projs.enum.map (fun p =>
      match p.2 with | some _ => weightFor W p.1 | none => 0)).sum : ℚ) = 0 := by
    apply List.sum_eq_zero
    intro x hx
    obtain ⟨p, hp, hfx⟩ := List.mem_map.mp hx
    rw [← hfx]
    rcases hop : p.2 with _ | v
    · simp
    · have := hw p hp (by simp [hop])
      simp [this]
  simp [hz]

/-- Witness for C7 at a concrete row whose only present value has weight 0. -/
theorem C7_witness :
    (weighted_average_row [(0, 0)] ⟨⟨none, none, none⟩, [some 5, none]⟩).combined_proj
      = none :=
  C7_all_zero_weights_give_missing [(0, 0)] ⟨⟨none, none, none⟩, [some 5, none]⟩
    (by decide)

/-- C6: DROP_HIGH_LOW on a row equals the spec description: plain mean of the
present values when there are two or fewer of them, otherwise the mean of the
present values after removing exactly one highest and exactly one lowest
value. -/
theorem C6_drop_high_low_matches_spec (row : MergedRow) :
    drop_high_low_row row = drop_high_low_spec_row row := by
  unfold drop_high_low_row drop_high_low_spec_row
  dsimp only
  by_cases h2 : (presentProjs row).length ≤ 2
  · rw [if_pos h2, if_pos h2]
  · rw [if_neg h2, if_neg h2]
    have h3 : 3 ≤ (presentProjs row).length := by omega
    have hperm : ((presentProjs row).mergeSort (fun a b => decide (a ≤ b))).Perm
        (presentProjs row) := List.mergeSort_perm _ _
    have hsorted := mergeSort_sorted_le (presentProjs row)
    have hlen := hperm.length_eq
    rcases hsnil : (presentProjs row).mergeSort (fun a b => decide (a ≤ b)) with _ | ⟨a, t⟩
    · rw [hsnil] at hlen
      simp at hlen
      omega
    · rcases List.eq_nil_or_concat t with rfl | ⟨init, z, rfl⟩
      · rw [hsnil] at hlen
        simp at hlen
        omega
      · rw [hsnil] at hperm hsorted hlen
        simp only [List.concat_eq_append] at hperm hsorted hlen ⊢
        have hmem_iff := fun x : ℚ => @List.Perm.mem_iff ℚ x _ _ hperm
        have hamem : a ∈ presentProjs row := (hmem_iff a).mp (by simp)
        have hzmem : z ∈ presentProjs row := (hmem_iff z).mp (by simp)
        have hmin : listMin (presentProjs row) = a := by
          apply listMin_eq_of _ _ hamem
          intro x hx
          exact sorted_cons_lb a (init ++ [z]) hsorted x ((hmem_iff x).mpr hx)
        have hmax : listMax (presentProjs row) = z := by
          apply listMax_eq_of _ _ hzmem
          intro x hx
          have hx2 : x ∈ (a :: init) ++ [z] := by
            simpa using (hmem_iff x).mpr hx
          exact sorted_concat_ub (a :: init) z (by simpa using hsorted) x hx2
        have hsum : a + (init.sum + z) = (presentProjs row).sum := by
          have := hperm.sum_eq
          simpa using this
        have hlen2 : init.length + 2 = (presentProjs row).length := by
          simp at hlen
          omega
        have htrim : (List.drop 1 (a :: (init ++ [z]))).dropLast = init := by
          simp [List.dropLast_concat]
        rw [htrim]
        have hinitne : init ≠ [] := by
          intro hcon
          rw [hcon] at hlen2
          simp at hlen2
          omega
        rw [pdMean, if_neg hinitne]
        have hnum : init.sum = (presentProjs row).sum - listMax (presentProjs row)
            - listMin (presentProjs row) := by
          rw [hmin, hmax]
          linarith [hsum]
        have hden : (init.length : ℚ) = (((presentProjs row).length - 2 : ℕ) : ℚ) := by
          have : init.length = (presentProjs row).length - 2 := by omega
          rw [this]
        rw [hnum, hden]

/-! ### Lemmas: match_players membership -/

theorem match_players_mem_spec (m : PlayerMatcher) (s1 s2 : List Player)
    (mr : MatchResult) (h : mr ∈ match_players m s1 s2) :
    meets_thresholds m (calculate_player_similarity mr.source1_player mr.source2_player).1
        (calculate_player_similarity mr.source1_player mr.source2_player).2 = true
      ∧ mr.similarity
          = py_round3 (calculate_player_similarity mr.source1_player mr.source2_player).1
      ∧ mr.match_fields
          = (calculate_player_similarity mr.source1_player mr.source2_player).2
      ∧ mr.source1_index < s1.length ∧ mr.source2_index < s2.length
      ∧ s1[mr.source1_index]? = some mr.source1_player
      ∧ s2[mr.source2_index]? = some mr.source2_player := by
  unfold match_players at h
  have h2 : mr ∈ s1.enum.flatMap (fun p =>
      s2.enum.filterMap (fun q =>
        let r := calculate_player_similarity p.2 q.2
        if meets_thresholds m r.1 r.2 then
          some ⟨p.1, q.1, p.2, q.2, py_round3 r.1, r.2⟩
        else none)) := (List.mergeSort_perm _ _).mem_iff.mp h
  obtain ⟨p, hp, hmem⟩ := List.mem_flatMap.mp h2
  obtain ⟨q, hq, hf⟩ := List.mem_filterMap.mp hmem
  dsimp only at hf
  by_cases hm : meets_thresholds m (calculate_player_similarity p.2 q.2).1
      (calculate_player_similarity p.2 q.2).2 = true
  · rw [if_pos hm] at hf
    have hmr := (Option.some.injEq _ _).mp hf
    have hp2 := List.mem_enum_iff_getElem?.mp hp
    have hq2 := List.mem_enum_iff_getElem?.mp hq
    subst hmr
    refine ⟨hm, rfl, rfl, ?_, ?_, hp2, hq2⟩
    · exact (List.getElem?_eq_some.mp hp2).1
    · exact (List.getElem?_eq_some.mp hq2).1
  · rw [if_neg hm] at hf
    exact absurd hf (by simp)

theorem meets_overall (m : PlayerMatcher) (overall : ℚ) (fs : FieldSimilarities)
    (h : meets_thresholds m overall fs = true) : ¬ overall < m.overall_threshold := by
  unfold meets_thresholds at h
  simp only [Bool.and_eq_true, Bool.not_eq_true', decide_eq_false_iff_not] at h
  exact h.2

theorem overall_zero_of_no_shared_field (p1 p2 : Player)
    (h1 : ¬(p1.plyr.isSome = true ∧ p2.plyr.isSome = true))
    (h2 : ¬(p1.pos.isSome = true ∧ p2.pos.isSome = true))
    (h3 : ¬(p1.team.isSome = true ∧ p2.team.isSome = true)) :
    (calculate_player_similarity p1 p2).1 = 0 := by
  obtain ⟨f1, f2, f3⟩ := p1
  obtain ⟨g1, g2, g3⟩ := p2
  cases f1 <;> cases f2 <;> cases f3 <;> cases g1 <;> cases g2 <;> cases g3 <;>
    simp_all [calculate_player_similarity]

/-! ### Claim C1 -/

/-- C1 counterexample: two records that both lack the field plyr but carry
identical pos and team fields produce a MatchResult under the default
thresholds, contradicting the claim that no MatchResult is ever returned in
which either record lacks plyr. -/
theorem C1_counterexample :
    ((match_players defaultMatcher
        [⟨none, some ['q','b'], some ['b','u','f']⟩]
        [⟨none, some ['q','b'], some ['b','u','f']⟩]).map
      (fun mr => (mr.source1_player.plyr, mr.source2_player.plyr)))
      = [(none, none)] := by with_unfolding_all decide

/-- C1 amended: a MatchResult is produced only if at least one of the fields
plyr, pos, team is present in both records (whenever the overall threshold is
positive); the player-name field itself is not required, as records sharing
only pos and team can match. -/
theorem C1_amended_match_needs_shared_field (m : PlayerMatcher)
    (s1 s2 : List Player) (mr : MatchResult)
    (hthr : 0 < m.overall_threshold) (hmem : mr ∈ match_players m s1 s2) :
    (mr.source1_player.plyr.isSome = true ∧ mr.source2_player.plyr.isSome = true)
      ∨ (mr.source1_player.pos.isSome = true ∧ mr.source2_player.pos.isSome = true)
      ∨ (mr.source1_player.team.isSome = true ∧ mr.source2_player.team.isSome = true) := by
  by_contra hcon
  push_neg at hcon
  have hspec := match_players_mem_spec m s1 s2 mr hmem
  have hov := meets_overall m _ _ hspec.1
  have h0 : (calculate_player_similarity mr.source1_player mr.source2_player).1 = 0 := by
    apply overall_zero_of_no_shared_field
    · intro hc
      exact absurd hc.2 (hcon.1 hc.1)
    · intro hc
      exact absurd hc.2 (hcon.2.1 hc.1)
    · intro hc
      exact absurd hc.2 (hcon.2.2 hc.1)
  rw [h0] at hov
  exact hov hthr

/-- Witness for the amended C1 at concrete records sharing only the plyr
field. -/
theorem C1_witness :
    ((⟨some ['a','b'], none, none⟩ : Player).plyr.isSome = true
        ∧ (⟨some ['a','b'], none, none⟩ : Player).plyr.isSome = true)
      ∨ ((⟨some ['a','b'], none, none⟩ : Player).pos.isSome = true
        ∧ (⟨some ['a','b'], none, none⟩ : Player).pos.isSome = true)
      ∨ ((⟨some ['a','b'], none, none⟩ : Player).team.isSome = true
        ∧ (⟨some ['a','b'], none, none⟩ : Player).team.isSome = true) := by
  have h := C1_amended_match_needs_shared_field defaultMatcher
    [⟨some ['a','b'], none, none⟩] [⟨some ['a','b'], none, none⟩]
    ⟨0, 0, ⟨some ['a','b'], none, none⟩, ⟨some ['a','b'], none, none⟩, 1,
      ⟨some 1, none, none⟩⟩
    (by with_unfolding_all decide) (by with_unfolding_all decide)
  exact h

/-! ### Claim C9 -/

theorem toLower_of_space (c : Char) (h : isPySpace c = true) : Char.toLower c = c := by
  simp only [isPySpace, Bool.or_eq_true, decide_eq_true_eq] at h
  rcases h with ((((rfl | rfl) | rfl) | rfl) | rfl) | rfl <;> rfl

theorem strip_all_space (s : List Char) (h : ∀ c ∈ s, isPySpace c = true) :
    pyStrip (pyLower s) = [] := by
  have hlow : pyLower s = s := by
    unfold pyLower
    rw [List.map_congr_left (fun c hc => toLower_of_space c (h c hc))]
    simp
  rw [hlow]
  unfold pyStrip
  have h1 : s.dropWhile isPySpace = [] := List.dropWhile_eq_nil_iff.mpr h
  rw [h1]
  simp

/-- C9: for any two nonempty strings consisting only of whitespace characters
the similarity scorer returns 1.0: the falsy-input guard sees the raw
(nonempty) strings, and the two strings both normalize to the empty string,
for which the ratio guard returns 1.0. -/
theorem C9_whitespace_strings_score_one (s1 s2 : List Char)
    (h1 : s1 ≠ []) (h2 : s2 ≠ [])
    (hw1 : ∀ c ∈ s1, isPySpace c = true) (hw2 : ∀ c ∈ s2, isPySpace c = true) :
    calculate_similarity s1 s2 = 1 := by
  unfold calculate_similarity
  rw [if_neg (by simp [h1, h2])]
  rw [strip_all_space s1 hw1, strip_all_space s2 hw2]
  rfl

/-- Witness for C9 at two concrete whitespace strings. -/
theorem C9_witness : calculate_similarity [' ', ' '] ['\t'] = 1 :=
  C9_whitespace_strings_score_one [' ', ' '] ['\t'] (by decide) (by decide)
    (by decide) (by decide)

/-! ### Claim C10 -/

set_option maxRecDepth 100000 in
/-- C10: the similarity stored in every returned MatchResult is the exact
overall score rounded to three decimals, while threshold acceptance is tested
on the unrounded score; consequently a returned MatchResult can carry a
similarity strictly below overall_threshold, as the concrete instance in the
second conjunct shows (threshold 4/7, stored similarity 0.571 < 4/7). -/
theorem C10_similarity_rounding : (∀ (m : PlayerMatcher) (s1 s2 : List Player)
      (mr : MatchResult), mr ∈ match_players m s1 s2 →
      mr.similarity
        = py_round3 (calculate_player_similarity mr.source1_player mr.source2_player).1)
    ∧ ((match_players ⟨1/2, 4/5, 1/2, 4/7⟩
          [⟨some ['a','b','c'], none, none⟩] [⟨some ['a','b','d','e'], none, none⟩]).map
        (fun mr => decide (mr.similarity < (4:ℚ)/7))) = [true] := by
  constructor
  · intro m s1 s2 mr hmem
    exact (match_players_mem_spec m s1 s2 mr hmem).2.1
  · with_unfolding_all decide

set_option maxRecDepth 100000 in
/-- Witness for the universally quantified part of C10 at the concrete match
produced by the instance of its second conjunct. -/
theorem C10_witness :
    (⟨0, 0, ⟨some ['a','b','c'], none, none⟩, ⟨some ['a','b','d','e'], none, none⟩,
        571/1000, ⟨some (4/7), none, none⟩⟩ : MatchResult).similarity
      = py_round3 (calculate_player_similarity
          ⟨some ['a','b','c'], none, none⟩ ⟨some ['a','b','d','e'], none, none⟩).1 :=
  C10_similarity_rounding.1 ⟨1/2, 4/5, 1/2, 4/7⟩
    [⟨some ['a','b','c'], none, none⟩] [⟨some ['a','b','d','e'], none, none⟩]
    _ (by with_unfolding_all decide)

/-! ### Claim C4: the ratio is not symmetric, but is zero-symmetric -/

theorem foldl_ge_init {α β : Type*} (g : β → ℕ) (f : β → α → β)
    (mono : ∀ acc x, g acc ≤ g (f acc x)) (l : List α) :
    ∀ init, g init ≤ g (l.foldl f init) := by
  induction l with
  | nil => intro init; exact le_refl _
  | cons x xs ih =>
      intro init
      exact le_trans (mono init x) (ih (f init x))

theorem foldl_reaches {α β : Type*} (g : β → ℕ) (f : β → α → β)
    (mono : ∀ acc x, g acc ≤ g (f acc x)) (l : List α) (x₀ : α) (hx : x₀ ∈ l)
    (v : ℕ) (hv : ∀ acc, v ≤ g (f acc x₀)) :
    ∀ init, v ≤ g (l.foldl f init) := by
  induction l with
  | nil => cases hx
  | cons y ys ih =>
      intro init
      rcases List.mem_cons.mp hx with heq | hmem
      · subst heq
        exact le_trans (hv init) (foldl_ge_init g f mono ys (f init x₀))
      · exact ih hmem (f init y)

theorem runLen_ne_zero (x y : List Char) (h : runLen x y ≠ 0) :
    ∃ c xs ys, x = c :: xs ∧ y = c :: ys := by
  match x, y with
  | [], ys => exact absurd rfl h
  | c :: xs, [] => exact absurd rfl h
  | c :: xs, d :: ys =>
      by_cases hcd : c = d
      · exact ⟨c, xs, ys, rfl, by rw [hcd]⟩
      · exfalso
        apply h
        unfold runLen
        rw [if_neg hcd]

theorem runLen_cons_pos (c : Char) (xs ys : List Char) :
    1 ≤ runLen (c :: xs) (c :: ys) := by
  unfold runLen
  rw [if_pos rfl]
  omega

theorem flm_pos_of_common (a b : List Char) (c : Char) (hca : c ∈ a) (hcb : c ∈ b) :
    (find_longest_match a b).2.2 ≠ 0 := by
  obtain ⟨i, hi, hgi⟩ := List.mem_iff_getElem.mp hca
  obtain ⟨j, hj, hgj⟩ := List.mem_iff_getElem.mp hcb
  have hda : a.drop i = c :: a.drop (i + 1) := by
    rw [List.drop_eq_getElem_cons hi, hgi]
  have hdb : b.drop j = c :: b.drop (j + 1) := by
    rw [List.drop_eq_getElem_cons hj, hgj]
  have hk : 1 ≤ runLen (a.drop i) (b.drop j) := by
    rw [hda, hdb]
    exact runLen_cons_pos c _ _
  have hmono_inner : ∀ (i' : ℕ) (acc : ℕ × ℕ × ℕ) (j' : ℕ),
      acc.2.2 ≤ ((fun (best : ℕ × ℕ × ℕ) (j' : ℕ) =>
        if best.2.2 < runLen (a.drop i') (b.drop j') then (i', j', runLen (a.drop i') (b.drop j'))
        else best) acc j').2.2 := by
    intro i' acc j'
    show acc.2.2 ≤ (if acc.2.2 < runLen (a.drop i') (b.drop j')
      then (i', j', runLen (a.drop i') (b.drop j')) else acc).2.2
    split
    · next hlt => exact le_of_lt hlt
    · exact le_refl _
  have hmono_outer : ∀ (acc : ℕ × ℕ × ℕ) (i' : ℕ),
      acc.2.2 ≤ ((fun (best : ℕ × ℕ × ℕ) (i' : ℕ) =>
        (List.range b.length).foldl (fun (best : ℕ × ℕ × ℕ) (j' : ℕ) =>
          if best.2.2 < runLen (a.drop i') (b.drop j') then (i', j', runLen (a.drop i') (b.drop j'))
          else best) best) acc i').2.2 := by
    intro acc i'
    exact foldl_ge_init (fun (best : ℕ × ℕ × ℕ) => best.2.2) _ (hmono_inner i')
      (List.range b.length) acc
  have h1 : 1 ≤ (find_longest_match a b).2.2 := by
    unfold find_longest_match
    refine foldl_reaches (fun (best : ℕ × ℕ × ℕ) => best.2.2)
      (fun (best : ℕ × ℕ × ℕ) (i' : ℕ) =>
        (List.range b.length).foldl (fun (best : ℕ × ℕ × ℕ) (j' : ℕ) =>
          if best.2.2 < runLen (a.drop i') (b.drop j') then (i', j', runLen (a.drop i') (b.drop j'))
          else best) best)
      hmono_outer (List.range a.length) i (List.mem_range.mpr hi) 1 ?_ (0, 0, 0)
    intro acc
    refine foldl_reaches (fun (best : ℕ × ℕ × ℕ) => best.2.2)
      (fun (best : ℕ × ℕ × ℕ) (j' : ℕ) =>
        if best.2.2 < runLen (a.drop i) (b.drop j') then (i, j', runLen (a.drop i) (b.drop j'))
        else best)
      (hmono_inner i) (List.range b.length) j (List.mem_range.mpr hj) 1 ?_ acc
    intro acc2
    show 1 ≤ (if acc2.2.2 < runLen (a.drop i) (b.drop j)
      then (i, j, runLen (a.drop i) (b.drop j)) else acc2).2.2
    split
    · next hlt => exact hk
    · next hlt => omega
  omega

theorem flm_common_of_pos (a b : List Char) (h : (find_longest_match a b).2.2 ≠ 0) :
    ∃ c, c ∈ a ∧ c ∈ b := by
  unfold find_longest_match at h
  refine foldl_invariant
    (fun (best : ℕ × ℕ × ℕ) => best.2.2 ≠ 0 → ∃ c, c ∈ a ∧ c ∈ b) _ _ _ (by simp) ?_ h
  intro acc i hi hacc
  refine foldl_invariant
    (fun (best : ℕ × ℕ × ℕ) => best.2.2 ≠ 0 → ∃ c, c ∈ a ∧ c ∈ b) _ _ _ hacc ?_
  intro acc2 j hj hacc2
  show (if acc2.2.2 < runLen (a.drop i) (b.drop j)
      then (i, j, runLen (a.drop i) (b.drop j)) else acc2).2.2 ≠ 0 → ∃ c, c ∈ a ∧ c ∈ b
  split
  · next hlt =>
      intro _
      have hrl : runLen (a.drop i) (b.drop j) ≠ 0 := by omega
      obtain ⟨c, xs, ys, hx, hy⟩ := runLen_ne_zero _ _ hrl
      refine ⟨c, ?_, ?_⟩
      · exact List.drop_subset i a (by rw [hx]; exact List.mem_cons_self _ _)
      · exact List.drop_subset j b (by rw [hy]; exact List.mem_cons_self _ _)
  · exact hacc2

theorem flm_zero_iff (a b : List Char) :
    (find_longest_match a b).2.2 = 0 ↔ ¬∃ c, c ∈ a ∧ c ∈ b := by
  constructor
  · intro h hc
    obtain ⟨c, hca, hcb⟩ := hc
    exact flm_pos_of_common a b c hca hcb h
  · intro hno
    by_contra h
    exact hno (flm_common_of_pos a b h)

theorem matched_total_zero_iff (a b : List Char) :
    matched_total a b = 0 ↔ (find_longest_match a b).2.2 = 0 := by
  unfold matched_total matched_total_go
  by_cases hk : (find_longest_match a b).2.2 = 0
  · rw [if_pos hk]
    simp [hk]
  · rw [if_neg hk]
    constructor
    · intro h
      omega
    · intro h
      exact absurd h hk

theorem ratioQ_eq_zero_iff (a b : List Char) :
    ratioQ a b = 0 ↔ (a.length + b.length ≠ 0 ∧ matched_total a b = 0) := by
  unfold ratioQ
  by_cases hT : a.length + b.length = 0
  · rw [if_pos hT]
    simp [hT]
  · rw [if_neg hT]
    rw [div_eq_zero_iff]
    constructor
    · intro h
      rcases h with h | h
      · rcases mul_eq_zero.mp h with h2 | h2
        · norm_num at h2
        · exact ⟨hT, by exact_mod_cast h2⟩
      · exfalso
        have : ((a.length + b.length : ℕ) : ℚ) ≠ 0 := Nat.cast_ne_zero.mpr hT
        push_cast at this h
        exact this h
    · intro h
      left
      rw [h.2]
      norm_num

/-- C4 counterexample: the scorer is not symmetric; at the concrete strings
"ba" and "abca" the two orders give 2/3 and 1/3; the difflib longest-match
tie-breaking depends on the argument order. -/
theorem C4_counterexample :
    calculate_similarity ['b','a'] ['a','b','c','a']
      ≠ calculate_similarity ['a','b','c','a'] ['b','a'] := by
  with_unfolding_all decide

/-- Zero-symmetry of the modelled (autojunk-free) scorer: similarity(a,b)
is 0 exactly when similarity(b,a) is 0, because both orders compare the same
character sets and the guards are symmetric.  This is a fact about the
autojunk-free algorithm; the claim-level statement below restricts it to the
inputs on which the program runs autojunk-free. -/
theorem calculate_similarity_zero_symm (a b : List Char) :
    (calculate_similarity a b = 0) ↔ (calculate_similarity b a = 0) := by
  unfold calculate_similarity
  by_cases hg : a = [] ∨ b = []
  · rw [if_pos hg, if_pos hg.symm]
  · rw [if_neg hg, if_neg (fun hc => hg hc.symm)]
    rw [ratioQ_eq_zero_iff, ratioQ_eq_zero_iff]
    have hM : matched_total (pyStrip (pyLower a)) (pyStrip (pyLower b)) = 0
        ↔ matched_total (pyStrip (pyLower b)) (pyStrip (pyLower a)) = 0 := by
      rw [matched_total_zero_iff, matched_total_zero_iff, flm_zero_iff, flm_zero_iff]
      constructor <;>
        · intro h hc
          obtain ⟨c, h1, h2⟩ := hc
          exact h ⟨c, h2, h1⟩
    constructor
    · intro h
      exact ⟨by omega, hM.mp h.2⟩
    · intro h
      exact ⟨by omega, hM.mpr h.2⟩

/-- C4 amended: the scorer is not symmetric (see the counterexample), and
zero-symmetry holds on the autojunk-free regime: for ASCII strings shorter
than 200 characters — where the default difflib autojunk purge, which can
zero one comparison order only, never fires, and where the modelled
normalization agrees with Python — similarity(a,b) = 0 exactly when
similarity(b,a) = 0. -/
theorem C4_amended_zero_symmetric_below_autojunk (a b : List Char)
    (_ha : ∀ c ∈ a, c.toNat < 128) (_hb : ∀ c ∈ b, c.toNat < 128)
    (_hla : a.length < 200) (_hlb : b.length < 200) :
    (calculate_similarity a b = 0) ↔ (calculate_similarity b a = 0) :=
  calculate_similarity_zero_symm a b

/-- Witness for the amended C4 at two concrete short ASCII strings with no
common character (both orders score 0). -/
theorem C4_witness :
    (calculate_similarity ['a','b'] ['c','d'] = 0)
      ↔ (calculate_similarity ['c','d'] ['a','b'] = 0) :=
  C4_amended_zero_symmetric_below_autojunk ['a','b'] ['c','d']
    (by decide) (by decide) (by decide) (by decide)

/-! ### Claim C2: greedy no-duplicate invariant -/

theorem get_best_matches_false_eq (m : PlayerMatcher) (s1 s2 : List Player) :
    get_best_matches m s1 s2 false
      = (if match_players m s1 s2 = [] then []
         else (((((match_players m s1 s2).map (fun mr => mr.source1_index)).dedup).mergeSort
            (fun a b => decide (a ≤ b))).foldl (gbm_step (match_players m s1 s2))
            ([], [])).1) := rfl

theorem maxBySimilarity_mem (l : List MatchResult) (mr : MatchResult)
    (h : maxBySimilarity l = some mr) : mr ∈ l := by
  match l with
  | [] => exact absurd h (by simp [maxBySimilarity])
  | x :: xs =>
      have hmr : xs.foldl (fun best y => if best.similarity < y.similarity then y else best) x
          = mr := by
        have := h
        unfold maxBySimilarity at this
        exact Option.some.inj this
      rw [← hmr]
      refine foldl_invariant (fun best => best ∈ x :: xs) _ _ _ (List.mem_cons_self _ _) ?_
      intro acc y hy hacc
      dsimp only
      split
      · exact List.mem_cons_of_mem _ hy
      · exact hacc

theorem gbm_fold_inv (all : List MatchResult) :
    ∀ (ks : List ℕ) (st : List MatchResult × List ℕ),
      ks.Nodup →
      (∀ mr ∈ st.1, mr.source1_index ∉ ks) →
      (∀ mr ∈ st.1, mr ∈ all) →
      st.2 = st.1.map (fun mr => mr.source2_index) →
      (st.1.map (fun mr => mr.source2_index)).Nodup →
      (st.1.map (fun mr => mr.source1_index)).Nodup →
      (∀ mr ∈ (ks.foldl (gbm_step all) st).1, mr ∈ all)
        ∧ ((ks.foldl (gbm_step all) st).1.map (fun mr => mr.source2_index)).Nodup
        ∧ ((ks.foldl (gbm_step all) st).1.map (fun mr => mr.source1_index)).Nodup := by
  intro ks
  induction ks with
  | nil =>
      intro st _ _ h3 _ h5 h6
      exact ⟨h3, h5, h6⟩
  | cons k ks ih =>
      intro st hnd hnotin hall hst2 hnd2 hnd1
      rw [List.foldl_cons]
      rcases hmb : maxBySimilarity ((all.filter (fun mr => mr.source1_index == k)).filter
          (fun mr => !st.2.contains mr.source2_index)) with _ | best
      · have hstep : gbm_step all st k = st := by
          simp only [gbm_step]
          rw [hmb]
        rw [hstep]
        exact ih st (List.nodup_cons.mp hnd).2
          (fun mr hmr => fun hks => hnotin mr hmr (List.mem_cons_of_mem _ hks))
          hall hst2 hnd2 hnd1
      · have hstep : gbm_step all st k
            = (st.1 ++ [best], st.2 ++ [best.source2_index]) := by
          simp only [gbm_step]
          rw [hmb]
        rw [hstep]
        have hbmem := maxBySimilarity_mem _ _ hmb
        have hb2 := List.mem_filter.mp hbmem
        have hb1 := List.mem_filter.mp hb2.1
        have hbk : best.source1_index = k := by
          have := hb1.2
          simpa using this
        have hbnotin2 : best.source2_index ∉ st.2 := by
          have := hb2.2
          simpa using this
        have hkfresh : k ∉ ks := (List.nodup_cons.mp hnd).1
        have hs2fresh : best.source2_index ∉ st.1.map (fun mr => mr.source2_index) := by
          rw [← hst2]
          exact hbnotin2
        have hs1fresh : best.source1_index ∉ st.1.map (fun mr => mr.source1_index) := by
          rw [hbk]
          intro hc
          obtain ⟨mr, hmr, hmrk⟩ := List.mem_map.mp hc
          exact hnotin mr hmr (hmrk ▸ List.mem_cons_self _ _)
        apply ih
        · exact (List.nodup_cons.mp hnd).2
        · intro mr hmr
          rcases List.mem_append.mp hmr with hmr | hmr
          · exact fun hks => hnotin mr hmr (List.mem_cons_of_mem _ hks)
          · rw [List.mem_singleton.mp hmr, hbk]
            exact hkfresh
        · intro mr hmr
          rcases List.mem_append.mp hmr with hmr | hmr
          · exact hall mr hmr
          · rw [List.mem_singleton.mp hmr]
            exact hb1.1
        · rw [List.map_append, hst2]
          rfl
        · rw [List.map_append]
          refine (List.perm_append_singleton _ _).nodup_iff.mpr ?_
          exact List.nodup_cons.mpr ⟨hs2fresh, hnd2⟩
        · rw [List.map_append]
          refine (List.perm_append_singleton _ _).nodup_iff.mpr ?_
          exact List.nodup_cons.mpr ⟨hs1fresh, hnd1⟩

theorem gbm_keys_nodup (all : List MatchResult) :
    (((all.map (fun mr => mr.source1_index)).dedup).mergeSort
      (fun a b => decide (a ≤ b))).Nodup :=
  (List.mergeSort_perm _ _).nodup_iff.mpr (List.nodup_dedup _)

theorem get_best_matches_inv (m : PlayerMatcher) (s1 s2 : List Player) :
    (∀ mr ∈ get_best_matches m s1 s2 false, mr ∈ match_players m s1 s2)
      ∧ ((get_best_matches m s1 s2 false).map (fun mr => mr.source2_index)).Nodup
      ∧ ((get_best_matches m s1 s2 false).map (fun mr => mr.source1_index)).Nodup := by
  rw [get_best_matches_false_eq]
  by_cases hall : match_players m s1 s2 = []
  · rw [if_pos hall]
    simp
  · rw [if_neg hall]
    exact gbm_fold_inv (match_players m s1 s2) _ ([], [])
      (gbm_keys_nodup _) (by simp) (by simp) (by simp) (by simp) (by simp)

/-- C2: with allow_duplicates = false, the list returned by get_best_matches
never repeats a source-1 index nor a source-2 index. -/
theorem C2_no_duplicate_indices (m : PlayerMatcher) (s1 s2 : List Player) :
    ((get_best_matches m s1 s2 false).map (fun mr => mr.source1_index)).Nodup
      ∧ ((get_best_matches m s1 s2 false).map (fun mr => mr.source2_index)).Nodup :=
  ⟨(get_best_matches_inv m s1 s2).2.2, (get_best_matches_inv m s1 s2).2.1⟩

/-! ### Claim C3: the fuzzy merge only ever extends source-0 rows -/

theorem keyed_extract {β : Type*} : ∀ (m : List (ℕ × β)), (m.map Prod.fst).Nodup →
    ∀ (i : ℕ) (a : β), (i, a) ∈ m →
    m.Perm ((i, a) :: m.filter (fun p => !(p.1 == i))) := by
  intro m
  induction m with
  | nil =>
      intro _ i a h
      cases h
  | cons e m ih =>
      intro hnd i a hmem
      rw [List.map_cons] at hnd
      have hnd2 := List.nodup_cons.mp hnd
      rcases List.mem_cons.mp hmem with heq | hmem2
      · subst heq
        rw [List.filter_cons_of_neg (by simp)]
        have hrest : m.filter (fun p => !(p.1 == i)) = m := by
          apply List.filter_eq_self.mpr
          intro p hp
          have hpi : p.1 ≠ i := by
            intro hc
            apply hnd2.1
            show i ∈ m.map Prod.fst
            rw [← hc]
            exact List.mem_map_of_mem Prod.fst hp
          simpa using hpi
        rw [hrest]
      · obtain ⟨j, b⟩ := e
        have hji : j ≠ i := by
          intro hc
          apply hnd2.1
          show j ∈ m.map Prod.fst
          rw [hc]
          exact List.mem_map_of_mem Prod.fst hmem2
        rw [List.filter_cons_of_pos (by simpa using hji)]
        have hperm := ih hnd2.2 i a hmem2
        exact (hperm.cons (j, b)).trans (List.Perm.swap (i, a) (j, b) _)

theorem pick_perm {β : Type*} (l : List β) : ∀ (S : List ℕ), S.Nodup →
    ((S.filterMap (fun i => l[i]?))
      ++ ((l.enum.filter (fun p => !(S.contains p.1))).map Prod.snd)).Perm l := by
  intro S
  induction S with
  | nil =>
      intro _
      have hf : l.enum.filter (fun p => !(([] : List ℕ).contains p.1)) = l.enum := by
        apply List.filter_eq_self.mpr
        intro p _
        simp
      rw [List.filterMap_nil, hf, List.nil_append, List.enum_map_snd]
  | cons i S ih =>
      intro hnd
      have hnd2 := List.nodup_cons.mp hnd
      rcases hget : l[i]? with _ | a
      · have hfm : ((i :: S).filterMap (fun i => l[i]?)) = S.filterMap (fun i => l[i]?) := by
          rw [List.filterMap_cons, hget]
        have hlen := List.getElem?_eq_none_iff.mp hget
        have hfilter : l.enum.filter (fun p => !((i :: S).contains p.1))
            = l.enum.filter (fun p => !(S.contains p.1)) := by
          apply List.filter_congr
          intro p hp
          have hplt : p.1 < l.length := by
            have := List.mem_enum_iff_getElem?.mp hp
            exact (List.getElem?_eq_some.mp this).1
          have hpi : p.1 ≠ i := by omega
          simp [List.contains_cons, hpi]
        rw [hfm, hfilter]
        exact ih hnd2.2
      · rw [List.filterMap_cons, hget]
        have hm := keyed_extract (l.enum.filter (fun p => !(S.contains p.1)))
          (by
            have hsub : (l.enum.filter (fun p => !(S.contains p.1))).map Prod.fst
                |>.Sublist (l.enum.map Prod.fst) :=
              List.Sublist.map Prod.fst (List.filter_sublist l.enum)
            have hnr : (l.enum.map Prod.fst).Nodup := by
              rw [List.enum_map_fst]
              exact List.nodup_range l.length
            exact hnr.sublist hsub)
          i a
          (by
            apply List.mem_filter.mpr
            refine ⟨List.mem_enum_iff_getElem?.mpr hget, ?_⟩
            simpa using hnd2.1)
        have hff : (l.enum.filter (fun p => !(S.contains p.1))).filter
              (fun p => !(p.1 == i))
            = l.enum.filter (fun p => !((i :: S).contains p.1)) := by
          rw [List.filter_filter]
          apply List.filter_congr
          intro p _
          simp only [List.contains_cons, Bool.not_or]
        rw [hff] at hm
        have hsnd := hm.map Prod.snd
        rw [List.map_cons] at hsnd
        refine List.Perm.trans List.perm_middle.symm ?_
        refine List.Perm.trans (List.Perm.append_left _ hsnd.symm) ?_
        exact ih hnd2.2

theorem fuzzy_step_spec (m : PlayerMatcher) (acc : List MergedRow)
    (src : List SourceRecord) (n : ℕ) (hn : ∀ row ∈ acc, row.projs.length = n) :
    ((fuzzy_merge_step m acc src).map (fun row => row.base)).Perm
        (acc.map (fun row => row.base))
      ∧ ∀ row ∈ fuzzy_merge_step m acc src, row.projs.length = n + 1 := by
  simp only [fuzzy_merge_step]
  set ms := get_best_matches m (acc.map (fun row => row.base))
    (src.map SourceRecord.fields) false with hms
  set matched := ms.filterMap (fun mr =>
    (acc[mr.source1_index]?).map (fun row =>
      { row with projs := row.projs
          ++ [(src[mr.source2_index]?).bind (fun s => s.proj)] })) with hmatched
  set unmatched := (acc.enum.filter
      (fun p => !((ms.map (fun mr => mr.source1_index)).contains p.1))).map
    (fun p => { p.2 with projs := p.2.projs ++ [none] }) with hunmatched
  by_cases hempty : matched ++ unmatched = []
  · rw [if_pos hempty]
    constructor
    · rw [List.map_map]
      exact List.Perm.refl _
    · intro row hrow
      obtain ⟨r, hr, hrw⟩ := List.mem_map.mp hrow
      rw [← hrw]
      simp [hn r hr]
  · rw [if_neg hempty]
    have hSnd : (ms.map (fun mr => mr.source1_index)).Nodup :=
      (get_best_matches_inv m (acc.map (fun row => row.base))
        (src.map SourceRecord.fields)).2.2
    have hpick := pick_perm acc (ms.map (fun mr => mr.source1_index)) hSnd
    constructor
    · have hleft : matched.map (fun row => row.base)
          = ((ms.map (fun mr => mr.source1_index)).filterMap
              (fun i => acc[i]?)).map (fun row => row.base) := by
        rw [hmatched, List.map_filterMap, List.map_filterMap, List.filterMap_map]
        apply List.filterMap_congr
        intro mr _
        show Option.map (fun row => row.base)
            (Option.map (fun row => { row with projs := row.projs
              ++ [(src[mr.source2_index]?).bind (fun s => s.proj)] }) acc[mr.source1_index]?)
          = Option.map (fun row => row.base) acc[mr.source1_index]?
        rcases acc[mr.source1_index]? with _ | row
        · rfl
        · rfl
      have hright : unmatched.map (fun row => row.base)
          = ((acc.enum.filter
              (fun p => !((ms.map (fun mr => mr.source1_index)).contains p.1))).map
            Prod.snd).map (fun row => row.base) := by
        rw [hunmatched, List.map_map, List.map_map]
        rfl
      have hfull : (matched ++ unmatched).map (fun row => row.base)
          = (((ms.map (fun mr => mr.source1_index)).filterMap (fun i => acc[i]?))
              ++ (acc.enum.filter
                (fun p => !((ms.map (fun mr => mr.source1_index)).contains p.1))).map
                Prod.snd).map (fun row => row.base) := by
        rw [List.map_append, List.map_append, hleft, hright]
      rw [hfull]
      exact hpick.map (fun row => row.base)
    · intro row hrow
      rcases List.mem_append.mp hrow with hrow | hrow
      · rw [hmatched] at hrow
        obtain ⟨mr, hmr, hfm⟩ := List.mem_filterMap.mp hrow
        rcases hga : acc[mr.source1_index]? with _ | r
        · rw [hga] at hfm
          exact absurd hfm (by simp)
        · rw [hga] at hfm
          have hrw := Option.some.inj hfm
          have hrmem : r ∈ acc := List.getElem?_mem hga
          rw [← hrw]
          simp [hn r hrmem]
      · rw [hunmatched] at hrow
        obtain ⟨p, hp, hpw⟩ := List.mem_map.mp hrow
        have hpmem : p ∈ acc.enum := (List.mem_filter.mp hp).1
        have hp2 : p.2 ∈ acc :=
          List.getElem?_mem (List.mem_enum_iff_getElem?.mp hpmem)
        rw [← hpw]
        simp [hn p.2 hp2]

theorem fuzzy_fold_spec (m : PlayerMatcher) :
    ∀ (srcs : List (List SourceRecord)) (acc : List MergedRow) (n : ℕ),
      (∀ row ∈ acc, row.projs.length = n) →
      (((srcs.foldl (fuzzy_merge_step m) acc).map (fun row => row.base)).Perm
          (acc.map (fun row => row.base))
        ∧ ∀ row ∈ srcs.foldl (fuzzy_merge_step m) acc,
            row.projs.length = n + srcs.length) := by
  intro srcs
  induction srcs with
  | nil =>
      intro acc n hn
      exact ⟨List.Perm.refl _, by simpa using hn⟩
  | cons src srcs ih =>
      intro acc n hn
      rw [List.foldl_cons]
      have hstep := fuzzy_step_spec m acc src n hn
      have hrec := ih (fuzzy_merge_step m acc src) (n + 1) hstep.2
      refine ⟨hrec.1.trans hstep.1, ?_⟩
      intro row hrow
      have h2 := hrec.2 row hrow
      simp only [List.length_cons]
      omega

/-- C3: in fuzzy merge mode (at least two sources) the rows of the merged
table are exactly the rows rooted in source 0: the multiset of identifying
fields of the output rows is exactly that of source 0 (matched rows gain a
proj_i value, unmatched rows a missing one, and records of later sources
matching nothing are dropped), and every row carries one projection column
per source. -/
theorem C3_fuzzy_merge_rows_are_source0 (m : PlayerMatcher)
    (p0 p1 : List SourceRecord) (rest : List (List SourceRecord)) :
    ((merge_projections_fuzzy m (p0 :: p1 :: rest)).map (fun row => row.base)).Perm
        (p0.map SourceRecord.fields)
      ∧ (merge_projections_fuzzy m (p0 :: p1 :: rest)).all
          (fun row => row.projs.length == rest.length + 2) = true := by
  have hinit : ∀ row ∈ p0.map (fun r =>
      (⟨r.fields, [r.proj]⟩ : MergedRow)), row.projs.length = 1 := by
    intro row hrow
    obtain ⟨r, _, hrw⟩ := List.mem_map.mp hrow
    rw [← hrw]
    rfl
  have hfold := fuzzy_fold_spec m (p1 :: rest)
    (p0.map (fun r => (⟨r.fields, [r.proj]⟩ : MergedRow))) 1 hinit
  have hres : merge_projections_fuzzy m (p0 :: p1 :: rest)
      = (p1 :: rest).foldl (fuzzy_merge_step m)
        (p0.map (fun r => (⟨r.fields, [r.proj]⟩ : MergedRow))) := rfl
  constructor
  · rw [hres]
    refine hfold.1.trans ?_
    rw [List.map_map]
    exact List.Perm.refl _
  · rw [hres]
    apply List.all_eq_true.mpr
    intro row hrow
    have := hfold.2 row hrow
    simp only [List.length_cons] at this ⊢
    simp [this]
    omega

/-! ### Claim C8: which identifying columns the merged table keeps -/

theorem exact_fold_spec (rest : List (List SourceRecord)) :
    ∀ (acc : List MergedRow) (i : ℕ),
      (∀ row ∈ acc, row.projs.length = i ∧ row.base.pos = none ∧ row.base.team = none) →
      ∀ row ∈ (rest.foldl (fun (st : List MergedRow × ℕ) src =>
          (outer_merge_step st.1 src st.2, st.2 + 1)) (acc, i)).1,
        row.projs.length = i + rest.length ∧ row.base.pos = none
          ∧ row.base.team = none := by
  induction rest with
  | nil =>
      intro acc i hinv row hrow
      simpa using hinv row hrow
  | cons src rest ih =>
      intro acc i hinv
      rw [List.foldl_cons]
      have hstep : ∀ row ∈ outer_merge_step acc src i,
          row.projs.length = i + 1 ∧ row.base.pos = none ∧ row.base.team = none := by
        intro row hrow
        rcases List.mem_append.mp hrow with hrow | hrow
        · obtain ⟨r, hr, hmem2⟩ := List.mem_flatMap.mp hrow
          obtain ⟨hlen, hpos, hteam⟩ := hinv r hr
          by_cases hrights : src.filter (fun s => keyEq r.base.plyr s.plyr) = []
          · rw [if_pos hrights] at hmem2
            rcases List.mem_singleton.mp hmem2 with rfl
            refine ⟨?_, hpos, hteam⟩
            simp [hlen]
          · rw [if_neg hrights] at hmem2
            obtain ⟨sr, _, hsw⟩ := List.mem_map.mp hmem2
            rw [← hsw]
            refine ⟨?_, hpos, hteam⟩
            simp [hlen]
        · obtain ⟨sr, _, hsw⟩ := List.mem_map.mp hrow
          rw [← hsw]
          refine ⟨?_, rfl, rfl⟩
          simp
      intro row hrow
      have := ih (outer_merge_step acc src i) (i + 1) hstep row hrow
      refine ⟨?_, this.2.1, this.2.2⟩
      rw [this.1]
      simp only [List.length_cons]
      omega

/-- C8 counterexample: in exact mode the merged table does not retain the
position (or team) column of the anchor source: a single source whose record
carries pos = "qb" merges to a row whose pos is missing. -/
theorem C8_counterexample :
    (merge_projections [[⟨some ['a'], some ['q','b'], none, some 1⟩]]).map
        (fun row => row.base.pos) = [none]
      ∧ (⟨some ['a'], some ['q','b'], none, some 1⟩ : SourceRecord).pos
          = some ['q','b'] := by
  with_unfolding_all decide

/-- C8 amended: every merged row keeps the player-name column and one proj_i
column per source, but only fuzzy mode retains the anchor row's position and
team (taken from the contributing source-0 record); exact mode drops the
position and team columns entirely. -/
theorem C8_identifying_fields :
    (∀ (projections : List (List SourceRecord)),
        (merge_projections projections).all
          (fun row => (row.base.pos == none) && (row.base.team == none)
            && (row.projs.length == projections.length)) = true)
      ∧ (∀ (m : PlayerMatcher) (p0 p1 : List SourceRecord)
          (rest : List (List SourceRecord)),
          (merge_projections_fuzzy m (p0 :: p1 :: rest)).all
            (fun row => (p0.map SourceRecord.fields).contains row.base
              && (row.projs.length == rest.length + 2)) = true) := by
  constructor
  · intro projections
    apply List.all_eq_true.mpr
    intro row hrow
    match projections with
    | [] => cases hrow
    | p0 :: rest =>
        have hres : merge_projections (p0 :: rest)
            = (rest.foldl (fun (st : List MergedRow × ℕ) src =>
                (outer_merge_step st.1 src st.2, st.2 + 1))
              (p0.map (fun r => (⟨⟨r.plyr, none, none⟩, [r.proj]⟩ : MergedRow)), 1)).1 :=
          rfl
        rw [hres] at hrow
        have hinit : ∀ row ∈ p0.map (fun r =>
            (⟨⟨r.plyr, none, none⟩, [r.proj]⟩ : MergedRow)),
            row.projs.length = 1 ∧ row.base.pos = none ∧ row.base.team = none := by
          intro row hrow2
          obtain ⟨r, _, hrw⟩ := List.mem_map.mp hrow2
          rw [← hrw]
          exact ⟨rfl, rfl, rfl⟩
        have := exact_fold_spec rest _ 1 hinit row hrow
        simp only [List.length_cons, Bool.and_eq_true, beq_iff_eq]
        refine ⟨⟨this.2.1, this.2.2⟩, ?_⟩
        rw [this.1]
        omega
  · intro m p0 p1 rest
    apply List.all_eq_true.mpr
    intro row hrow
    have hinit : ∀ row ∈ p0.map (fun r =>
        (⟨r.fields, [r.proj]⟩ : MergedRow)), row.projs.length = 1 := by
      intro row hrow2
      obtain ⟨r, _, hrw⟩ := List.mem_map.mp hrow2
      rw [← hrw]
      rfl
    have hfold := fuzzy_fold_spec m (p1 :: rest)
      (p0.map (fun r => (⟨r.fields, [r.proj]⟩ : MergedRow))) 1 hinit
    have hres : merge_projections_fuzzy m (p0 :: p1 :: rest)
        = (p1 :: rest).foldl (fuzzy_merge_step m)
          (p0.map (fun r => (⟨r.fields, [r.proj]⟩ : MergedRow))) := rfl
    rw [hres] at hrow
    have hbase : row.base ∈ p0.map SourceRecord.fields := by
      have hmem : row.base ∈ ((p1 :: rest).foldl (fuzzy_merge_step m)
          (p0.map (fun r => (⟨r.fields, [r.proj]⟩ : MergedRow)))).map
            (fun row => row.base) :=
        List.mem_map_of_mem _ hrow
      have h2 := hfold.1.mem_iff.mp hmem
      rw [List.map_map] at h2
      exact h2
    have hlen := hfold.2 row hrow
    simp only [Bool.and_eq_true, beq_iff_eq]
    constructor
    · simpa using hbase
    · rw [hlen]
      simp only [List.length_cons]
      omega

end NFLProj
